import Mathlib

/-!
Shallow embedding of `app/services/srs_engine.py` (TCSRS repository).

Python floats are modelled as exact rationals (`ℚ`); `datetime` values are
modelled as rationals measuring hours on an absolute timeline, so that
`timedelta(hours = x)` is addition of `x`.  `base_score` is a Python `int`,
modelled as `ℤ`.  A topic dictionary is modelled by the two keys the engine
reads (`stability`, `difficulty`), each possibly absent (`Option ℚ`), since
`topic.get(key, default)` supplies a default when the key is missing.  A card
dictionary is modelled by an identifier plus its possibly-absent
`intrinsic_weight` key.  `random.choices(cards, weights, k=1)` draws
`u = random() * total` uniformly in `[0, total)` and returns
`cards[bisect(cum_weights, u, 0, n-1)]`; we make the draw `u` an explicit
argument and embed the bisection as the first index whose cumulative weight
exceeds `u`, clamped to `n - 1`.
-/

def MIN_STABILITY : ℚ := 2.4

def MAX_STABILITY : ℚ := 8760.0

def MIN_DIFFICULTY : ℚ := 1.0

def MAX_DIFFICULTY : ℚ := 10.0

def EXPECTED_SCORE : ℚ := 2.0

def DIFFICULTY_RATE : ℚ := 0.3

/-- Embedding of `update_stability` from `srs_engine.py`. -/
def update_stability (current_stability : ℚ) (base_score : ℤ)
    (intrinsic_weight : ℚ) : ℚ :=
  let new_stability :=
    if base_score = 0 then
      max MIN_STABILITY (current_stability * 0.5)
    else
      let effective_score := (base_score : ℚ) * intrinsic_weight
      let growth_factor := 1 + (effective_score * 0.15)
      current_stability * growth_factor
  max MIN_STABILITY (min MAX_STABILITY new_stability)

/-- Embedding of `update_difficulty` from `srs_engine.py`. -/
def update_difficulty (current_difficulty : ℚ) (base_score : ℤ)
    (intrinsic_weight : ℚ) : ℚ :=
  let effective_score := (base_score : ℚ) * intrinsic_weight
  let difficulty_delta := (effective_score - EXPECTED_SCORE) * DIFFICULTY_RATE
  let new_difficulty := current_difficulty - difficulty_delta
  max MIN_DIFFICULTY (min MAX_DIFFICULTY new_difficulty)

/-- Embedding of `calculate_next_review` from `srs_engine.py`; the optional
`current_time` (defaulting to `datetime.now()`) is passed explicitly. -/
def calculate_next_review (stability difficulty current_time : ℚ) : ℚ :=
  let difficulty_modifier := 1 + (difficulty - 5) * 0.12
  let interval_hours := stability * difficulty_modifier
  current_time + interval_hours

/-- A card dictionary, seen through the keys the engine reads: an identifier
(standing for the rest of the dictionary) and the possibly-absent
`intrinsic_weight` key. -/
structure Card where
  cid : Nat
  intrinsic_weight : Option ℚ
  deriving DecidableEq, Repr

/-- Weight extraction `card.get('intrinsic_weight', 1.0)`. -/
def cardWeight (card : Card) : ℚ :=
  card.intrinsic_weight.getD 1.0

/-- Index computed by `bisect.bisect(cum_weights, u, 0, hi)` inside
`random.choices`, without the `hi` clamp: the first index whose cumulative
weight strictly exceeds the draw `u`. -/
def choicesIdx : List ℚ → ℚ → Nat
  | [], _ => 0
  | w :: ws, u => if u < w then 0 else choicesIdx ws (u - w) + 1

/-- Embedding of `sample_card` from `srs_engine.py`, with the uniform draw
`u ∈ [0, total_weight)` made explicit. -/
def sample_card (cards : List Card) (u : ℚ) : Option Card :=
  match cards with
  | [] => none
  | c :: cs =>
    let weights := (c :: cs).map cardWeight
    some ((c :: cs).getD (min (choicesIdx weights u) ((c :: cs).length - 1)) c)

/-- A topic dictionary, seen through the two keys `process_review` reads;
each may be absent. -/
structure Topic where
  stability : Option ℚ
  difficulty : Option ℚ
  deriving DecidableEq, Repr

/-- The dictionary returned by `process_review`. -/
structure SchedulingResult where
  stability : ℚ
  difficulty : ℚ
  next_review : ℚ
  last_reviewed : ℚ
  deriving DecidableEq, Repr

/-- Embedding of `process_review` from `srs_engine.py`; the optional
`current_time` is passed explicitly. -/
def process_review (topic : Topic) (base_score : ℤ) (intrinsic_weight : ℚ)
    (current_time : ℚ) : SchedulingResult :=
  let current_stability := topic.stability.getD 24.0
  let current_difficulty := topic.difficulty.getD 5.0
  let new_stability := update_stability current_stability base_score intrinsic_weight
  let new_difficulty := update_difficulty current_difficulty base_score intrinsic_weight
  let next_review := calculate_next_review new_stability new_difficulty current_time
  { stability := new_stability
    difficulty := new_difficulty
    next_review := next_review
    last_reviewed := current_time }

/-- Embedding of `get_effective_score` from `srs_engine.py`. -/
def get_effective_score (base_score : ℤ) (intrinsic_weight : ℚ) : ℚ :=
  (base_score : ℚ) * intrinsic_weight

/-- Total weight of a card list, `sum(weights)` in the source. -/
def totalWeight (cards : List Card) : ℚ :=
  ((cards.map cardWeight)).sum

/-- Cumulative weight strictly before index `i` in a weight list. -/
def cumBefore (ws : List ℚ) (i : Nat) : ℚ :=
  (ws.take i).sum

/-- C1: with `base_score = 0`, `update_stability` is `max(2.4, s * 0.5)`
clamped to `[2.4, 8760]`, independent of the weight; otherwise it is
`s * (1 + base_score * weight * 0.15)` clamped to the same interval; and the
two concrete evaluations from the spec hold. -/
theorem update_stability_spec (s w : ℚ) (b : ℤ) :
    (b = 0 →
      update_stability s b w
        = max MIN_STABILITY (min MAX_STABILITY (max MIN_STABILITY (s * 0.5)))
      ∧ update_stability s b w = update_stability s b 1)
    ∧ (b ≠ 0 →
      update_stability s b w
        = max MIN_STABILITY (min MAX_STABILITY (s * (1 + ((b : ℚ) * w) * 0.15))))
    ∧ update_stability 100 0 w = 50
    ∧ update_stability 1 0 1 = 2.4 := by
  refine ⟨?_, ?_, ?_, ?_⟩
  · rintro rfl
    exact ⟨rfl, rfl⟩
  · intro hb
    simp [update_stability, hb]
  · show max MIN_STABILITY (min MAX_STABILITY (max MIN_STABILITY (100 * 0.5))) = 50
    norm_num [MIN_STABILITY, MAX_STABILITY]
  · show max MIN_STABILITY (min MAX_STABILITY (max MIN_STABILITY (1 * 0.5))) = 2.4
    norm_num [MIN_STABILITY, MAX_STABILITY]

/-- Witness for `update_stability_spec` at concrete inputs, discharging both
the `b = 0` and the `b ≠ 0` hypotheses. -/
theorem update_stability_spec_witness :
    (update_stability 100 0 7
        = max MIN_STABILITY (min MAX_STABILITY (max MIN_STABILITY ((100 : ℚ) * 0.5)))
      ∧ update_stability 100 0 7 = update_stability 100 0 1)
    ∧ update_stability 6 2 3
        = max MIN_STABILITY (min MAX_STABILITY (6 * (1 + (((2 : ℤ) : ℚ) * 3) * 0.15))) :=
  ⟨(update_stability_spec 100 7 0).1 rfl,
   (update_stability_spec 6 3 2).2.1 (by decide)⟩

/-- C2: `update_difficulty` is `clamp(d - (b * w - 2) * 0.3, 1, 10)` with no
special case for `base_score = 0` (an "Again" review adds `0.6` before the
clamp), together with the two concrete evaluations from the spec. -/
theorem update_difficulty_spec (d w : ℚ) (b : ℤ) :
    update_difficulty d b w
      = max MIN_DIFFICULTY (min MAX_DIFFICULTY (d - ((b : ℚ) * w - 2) * 0.3))
    ∧ update_difficulty d 0 w
      = max MIN_DIFFICULTY (min MAX_DIFFICULTY (d + 0.6))
    ∧ update_difficulty 5 2 1 = 5
    ∧ update_difficulty 5 3 2 = 3.8 := by
  refine ⟨?_, ?_, ?_, ?_⟩
  · simp only [update_difficulty, EXPECTED_SCORE, DIFFICULTY_RATE]
    norm_num
  · simp only [update_difficulty, EXPECTED_SCORE, DIFFICULTY_RATE]
    norm_num
  · show max MIN_DIFFICULTY (min MAX_DIFFICULTY (5 - ((2 : ℚ) * 1 - EXPECTED_SCORE) * DIFFICULTY_RATE)) = 5
    norm_num [MIN_DIFFICULTY, MAX_DIFFICULTY, EXPECTED_SCORE, DIFFICULTY_RATE]
  · show max MIN_DIFFICULTY (min MAX_DIFFICULTY (5 - ((3 : ℚ) * 2 - EXPECTED_SCORE) * DIFFICULTY_RATE)) = 3.8
    norm_num [MIN_DIFFICULTY, MAX_DIFFICULTY, EXPECTED_SCORE, DIFFICULTY_RATE]

/-- C3: `calculate_next_review` returns `now + s * (1 + (d - 5) * 0.12)`
hours, and at difficulty `5` the modifier is `1`, so the interval is exactly
the stability. -/
theorem calculate_next_review_spec (s d t : ℚ) :
    calculate_next_review s d t = t + s * (1 + (d - 5) * 0.12)
    ∧ calculate_next_review 24 5 t = t + 24 := by
  constructor
  · rfl
  · show t + 24 * (1 + ((5 : ℚ) - 5) * 0.12) = t + 24
    ring

/-- C4: `process_review` returns exactly the record whose stability is
`update_stability` of the topic's current stability, whose difficulty is
`update_difficulty` of the topic's *original* current difficulty, whose
`next_review` is computed from the *new* stability and difficulty, and whose
`last_reviewed` is `now`; the input topic is left untouched (the embedding is
a pure function of the topic value). -/
theorem process_review_spec (topic : Topic) (b : ℤ) (w t : ℚ) :
    process_review topic b w t =
      { stability := update_stability (topic.stability.getD 24.0) b w
        difficulty := update_difficulty (topic.difficulty.getD 5.0) b w
        next_review :=
          calculate_next_review (update_stability (topic.stability.getD 24.0) b w)
            (update_difficulty (topic.difficulty.getD 5.0) b w) t
        last_reviewed := t } :=
  rfl

/-- The clamped stability always lies in `[MIN_STABILITY, MAX_STABILITY]`. -/
lemma update_stability_mem (s : ℚ) (b : ℤ) (w : ℚ) :
    MIN_STABILITY ≤ update_stability s b w
    ∧ update_stability s b w ≤ MAX_STABILITY := by
  unfold update_stability
  refine ⟨le_max_left _ _, max_le ?_ (min_le_left _ _)⟩
  norm_num [MIN_STABILITY, MAX_STABILITY]

/-- The clamped difficulty always lies in `[MIN_DIFFICULTY, MAX_DIFFICULTY]`. -/
lemma update_difficulty_mem (d : ℚ) (b : ℤ) (w : ℚ) :
    MIN_DIFFICULTY ≤ update_difficulty d b w
    ∧ update_difficulty d b w ≤ MAX_DIFFICULTY := by
  unfold update_difficulty
  refine ⟨le_max_left _ _, max_le ?_ (min_le_left _ _)⟩
  norm_num [MIN_DIFFICULTY, MAX_DIFFICULTY]

/-- C5: for arbitrary inputs, in range or not, `update_stability` lands in
`[2.4, 8760]` and `update_difficulty` lands in `[1, 10]`. -/
theorem scheduler_outputs_clamped (s d : ℚ) (b : ℤ) (w : ℚ) :
    (2.4 ≤ update_stability s b w ∧ update_stability s b w ≤ 8760)
    ∧ (1 ≤ update_difficulty d b w ∧ update_difficulty d b w ≤ 10) := by
  have h1 := update_stability_mem s b w
  have h2 := update_difficulty_mem d b w
  norm_num [MIN_STABILITY, MAX_STABILITY, MIN_DIFFICULTY, MAX_DIFFICULTY] at h1 h2 ⊢
  exact ⟨h1, h2⟩

/-- C6: for a topic whose stability and difficulty are in their documented
ranges, any base score in `{0,1,2,3}` and any positive weight, the
`next_review` returned by `process_review` is strictly after `now`. -/
theorem process_review_next_after_now (s d t w : ℚ) (b : ℤ)
    (hs1 : 2.4 ≤ s) (hs2 : s ≤ 8760) (hd1 : 1 ≤ d) (hd2 : d ≤ 10)
    (hb : b = 0 ∨ b = 1 ∨ b = 2 ∨ b = 3) (hw : 0 < w) :
    t < (process_review ⟨some s, some d⟩ b w t).next_review := by
  have hns := (update_stability_mem s b w).1
  have hnd1 := (update_difficulty_mem d b w).1
  have hnd2 := (update_difficulty_mem d b w).2
  show t < t + update_stability s b w * (1 + (update_difficulty d b w - 5) * 0.12)
  have hmod : (0 : ℚ) < 1 + (update_difficulty d b w - 5) * 0.12 := by
    norm_num [MIN_DIFFICULTY, MAX_DIFFICULTY] at hnd1 hnd2
    linarith
  have hpos : (0 : ℚ) < update_stability s b w := by
    norm_num [MIN_STABILITY] at hns
    linarith
  nlinarith [mul_pos hpos hmod]

/-- Witness for `process_review_next_after_now` at a concrete in-range topic. -/
theorem process_review_next_after_now_witness :
    (0 : ℚ) < (process_review ⟨some 24, some 5⟩ 2 1 0).next_review :=
  process_review_next_after_now 24 5 0 1 2 (by norm_num) (by norm_num)
    (by norm_num) (by norm_num) (by norm_num) (by norm_num)

/-- A "Good" review at weight `1` never shrinks a stability that is
non-negative and at most the cap. -/
lemma update_stability_good_ge (s : ℚ) (h0 : 0 ≤ s) (h : s ≤ MAX_STABILITY) :
    s ≤ update_stability s 2 1 := by
  have hrw : update_stability s 2 1
      = max MIN_STABILITY (min MAX_STABILITY (s * (1 + 2 * 0.15))) := by
    norm_num [update_stability]
  rw [hrw]
  have hmin : s ≤ min MAX_STABILITY (s * (1 + 2 * 0.15)) :=
    le_min h (by nlinarith)
  exact le_trans hmin (le_max_right _ _)

/-- C9: starting from any stability in `[2.4, 8760]`, two successive
`process_review` calls with `base_score = 2` and `intrinsic_weight = 1` give a
non-decreasing stability sequence. -/
theorem stability_nondecreasing_good_twice (s d t t' : ℚ)
    (h1 : 2.4 ≤ s) (h2 : s ≤ 8760) :
    s ≤ (process_review ⟨some s, some d⟩ 2 1 t).stability
    ∧ (process_review ⟨some s, some d⟩ 2 1 t).stability
        ≤ (process_review ⟨some (process_review ⟨some s, some d⟩ 2 1 t).stability,
            some (process_review ⟨some s, some d⟩ 2 1 t).difficulty⟩ 2 1 t').stability := by
  have hmax : s ≤ MAX_STABILITY := by norm_num [MAX_STABILITY]; linarith
  have step1 : s ≤ update_stability s 2 1 :=
    update_stability_good_ge s (by linarith) hmax
  have hmem := update_stability_mem s 2 1
  have step2 : update_stability s 2 1 ≤ update_stability (update_stability s 2 1) 2 1 :=
    update_stability_good_ge (update_stability s 2 1)
      (le_trans (by norm_num [MIN_STABILITY]) hmem.1) hmem.2
  exact ⟨step1, step2⟩

/-- Witness for `stability_nondecreasing_good_twice` at stability `24`. -/
theorem stability_nondecreasing_good_twice_witness :
    (24 : ℚ) ≤ (process_review ⟨some 24, some 5⟩ 2 1 0).stability
    ∧ (process_review ⟨some 24, some 5⟩ 2 1 0).stability
        ≤ (process_review ⟨some (process_review ⟨some 24, some 5⟩ 2 1 0).stability,
            some (process_review ⟨some 24, some 5⟩ 2 1 0).difficulty⟩ 2 1 1).stability :=
  stability_nondecreasing_good_twice 24 5 0 1 (by norm_num) (by norm_num)

/-- C10: a topic missing its `stability` key is processed exactly as if its
stability were `24.0`, and one missing its `difficulty` key exactly as if its
difficulty were `5.0`; the defaults are applied before any update formula. -/
theorem process_review_defaults (os od : Option ℚ) (b : ℤ) (w t : ℚ) :
    process_review ⟨none, od⟩ b w t = process_review ⟨some 24.0, od⟩ b w t
    ∧ process_review ⟨os, none⟩ b w t = process_review ⟨os, some 5.0⟩ b w t :=
  ⟨rfl, rfl⟩

/-- C8: `sample_card` on the empty list returns the defined empty result
(`none`), for every value of the random draw. -/
theorem sample_card_empty (u : ℚ) : sample_card [] u = none :=
  rfl

/-- For positive weights and a draw `u ∈ [0, sum ws)`, `choicesIdx` lands at a
valid index, and that index is exactly the one whose cumulative-weight
interval `[sum (take i), sum (take (i+1)))` contains `u`. -/
lemma choicesIdx_spec (ws : List ℚ) : ∀ u : ℚ, (∀ w ∈ ws, 0 < w) → 0 ≤ u →
    u < ws.sum →
    choicesIdx ws u < ws.length
    ∧ (ws.take (choicesIdx ws u)).sum ≤ u
    ∧ u < (ws.take (choicesIdx ws u + 1)).sum := by
  induction ws with
  | nil =>
    intro u _ h0 hu
    simp only [List.sum_nil] at hu
    linarith
  | cons w ws ih =>
    intro u hw h0 hu
    by_cases hc : u < w
    · have hidx : choicesIdx (w :: ws) u = 0 := by
        simp [choicesIdx, hc]
      refine ⟨?_, ?_, ?_⟩
      · rw [hidx]; simp
      · rw [hidx]; simpa using h0
      · rw [hidx, List.take_succ_cons]
        simpa using hc
    · push_neg at hc
      have hw' : ∀ x ∈ ws, 0 < x := fun x hx => hw x (List.mem_cons_of_mem _ hx)
      have hsum : u - w < ws.sum := by
        rw [List.sum_cons] at hu
        linarith
      obtain ⟨ih1, ih2, ih3⟩ := ih (u - w) hw' (by linarith) hsum
      have hidx : choicesIdx (w :: ws) u = choicesIdx ws (u - w) + 1 := by
        simp [choicesIdx, not_lt.mpr hc]
      refine ⟨?_, ?_, ?_⟩
      · rw [hidx, List.length_cons]
        omega
      · rw [hidx, List.take_succ_cons, List.sum_cons]
        linarith
      · rw [hidx, List.take_succ_cons, List.sum_cons]
        linarith

/-- C7: for a non-empty card list with positive weights (a missing
`intrinsic_weight` counting as `1.0`) and any draw `u ∈ [0, total_weight)`,
`sample_card` returns exactly the element of the input list at the first
index whose cumulative weight exceeds `u`; the set of draws selecting index
`i` is the interval `[cumBefore i, cumBefore (i+1))`, whose length is that
card's weight, so card `i` is selected with probability
`weight_i / sum(weights)` under the uniform draw. -/
theorem sample_card_spec (cards : List Card) (u : ℚ)
    (hne : cards ≠ []) (hw : ∀ c ∈ cards, 0 < cardWeight c)
    (h0 : 0 ≤ u) (hu : u < totalWeight cards) :
    ∃ i : Nat, ∃ h : i < cards.length,
      sample_card cards u = some (cards.get ⟨i, h⟩)
      ∧ cumBefore (cards.map cardWeight) i ≤ u
      ∧ u < cumBefore (cards.map cardWeight) (i + 1)
      ∧ cumBefore (cards.map cardWeight) (i + 1)
          - cumBefore (cards.map cardWeight) i
          = cardWeight (cards.get ⟨i, h⟩) := by
  obtain ⟨c, cs, rfl⟩ := List.exists_cons_of_ne_nil hne
  have hw' : ∀ x ∈ (c :: cs).map cardWeight, 0 < x := by
    intro x hx
    rw [List.mem_map] at hx
    obtain ⟨cc, hcc, rfl⟩ := hx
    exact hw cc hcc
  have hu' : u < ((c :: cs).map cardWeight).sum := hu
  obtain ⟨h1, h2, h3⟩ := choicesIdx_spec ((c :: cs).map cardWeight) u hw' h0 hu'
  rw [List.length_map] at h1
  refine ⟨choicesIdx ((c :: cs).map cardWeight) u, h1, ?_, h2, h3, ?_⟩
  · have hmin : min (choicesIdx ((c :: cs).map cardWeight) u) ((c :: cs).length - 1)
        = choicesIdx ((c :: cs).map cardWeight) u :=
      Nat.min_eq_left (by omega)
    show some ((c :: cs).getD
        (min (choicesIdx ((c :: cs).map cardWeight) u) ((c :: cs).length - 1)) c)
      = some ((c :: cs).get ⟨choicesIdx ((c :: cs).map cardWeight) u, h1⟩)
    rw [hmin, List.getD_eq_get _ _ h1]
  · have hlt : choicesIdx ((c :: cs).map cardWeight) u
        < ((c :: cs).map cardWeight).length := by
      rw [List.length_map]
      exact h1
    have hsucc := List.sum_take_succ ((c :: cs).map cardWeight)
      (choicesIdx ((c :: cs).map cardWeight) u) hlt
    simp only [cumBefore, hsucc, List.getElem_map, List.get_eq_getElem]
    ring

/-- A concrete two-card list: one explicit weight `2`, one missing weight. -/
def demoCards : List Card := [⟨0, some 2⟩, ⟨1, none⟩]

/-- Witness for `sample_card_spec` on a concrete card list and draw. -/
theorem sample_card_spec_witness :
    ∃ i : Nat, ∃ h : i < demoCards.length,
      sample_card demoCards (5 / 2) = some (demoCards.get ⟨i, h⟩)
      ∧ cumBefore (demoCards.map cardWeight) i ≤ 5 / 2
      ∧ (5 / 2 : ℚ) < cumBefore (demoCards.map cardWeight) (i + 1)
      ∧ cumBefore (demoCards.map cardWeight) (i + 1)
          - cumBefore (demoCards.map cardWeight) i
          = cardWeight (demoCards.get ⟨i, h⟩) :=
  sample_card_spec demoCards (5 / 2) (by simp [demoCards])
    (by
      intro c hc
      fin_cases hc <;> norm_num [cardWeight])
    (by norm_num)
    (by norm_num [totalWeight, demoCards, cardWeight])
